import Mathlib

/-!
# Verification of the pydicti case-insensitive dictionary

A shallow embedding of `pydicti.py` (the case insensitive derivable
dictionary) and proofs about it.  The container subclasses a backing
dictionary type (`dict` or `OrderedDict`): the inherited store maps
original-case keys to values, and a side table `__case` maps the
lower-cased key to the original-case key.  Both CPython `dict` and
`OrderedDict` enumerate entries in insertion order and replace values
in place on assignment to a present key, so both backing stores are
modelled as association lists with those semantics; they differ only
in equality, which is order-sensitive exactly when both operands are
`OrderedDict`s.
-/

set_option autoImplicit false

namespace Pydicti

/-- Keys are either textual (lower-case-able) or not, modelling that pydicti
"allows keys that are not strings": `_lower` leaves non-text keys unchanged. -/
inductive Key where
  | str (s : String)
  | num (n : Nat)
deriving DecidableEq

/-- `_lower` from `pydicti.py`: convert to lower case if possible (textual
keys), otherwise return the key unchanged.  `str.lower` is modelled on its
ASCII fragment by `Char.toLower`. -/
def plower : Key → Key
  | .str s => .str ⟨s.data.map Char.toLower⟩
  | .num n => .num n

/-- Payload values: `nat` is a scalar payload; `pair` is a payload that is
itself a 2-tuple.  The distinction matters only for code that unpacks a stored
value as a `(key, value)` pair (the historic `__copy__`). -/
inductive Value where
  | nat (n : Nat)
  | pair (k : Key) (n : Nat)
deriving DecidableEq

/-- Unpacking a value as a `(key, value)` tuple, as `for key, value in seq`
does: succeeds for tuple payloads, raises `TypeError` (modelled `none`) for a
scalar. -/
def asPair : Value → Option (Key × Value)
  | .nat _ => none
  | .pair k n => some (k, .nat n)

section AList

variable {α β : Type} [DecidableEq α]

/-- `d[k]` on a Python dict: the value bound to `k`, if any. -/
def alookup (k : α) : List (α × β) → Option β
  | [] => none
  | p :: l => if p.1 = k then some p.2 else alookup k l

/-- `k in d` on a Python dict. -/
def amem (k : α) (l : List (α × β)) : Bool :=
  (alookup k l).isSome

/-- `d[k] = v` on a CPython `dict`/`OrderedDict`: replace the value in place
if an equal key is present (the entry keeps its position and original key
object), else append a new entry at the end. -/
def ainsert (k : α) (v : β) : List (α × β) → List (α × β)
  | [] => [(k, v)]
  | p :: l => if p.1 = k then (p.1, v) :: l else p :: ainsert k v l

/-- `del d[k]` on a Python dict: remove the entry bound to `k` (callers check
presence; on an absent key the deletion sites in the source raise). -/
def aerase (k : α) : List (α × β) → List (α × β)
  | [] => []
  | p :: l => if p.1 = k then l else p :: aerase k l

/-- The keys of the association list are pairwise distinct (always true of a
list representing a Python dict). -/
def nodupKeys : List (α × β) → Bool
  | [] => true
  | p :: l => !amem p.1 l && nodupKeys l

end AList

/-- The backing store configuration: plain `dict` or `OrderedDict`. -/
inductive StoreKind where
  | unordered
  | ordered
deriving DecidableEq

/-- State of a `Dicti` instance: `store` is the inherited backing dictionary
(original-case key → value, in insertion order), `caseTbl` is the side table
`self.__case` (lower-case key → original-case key). -/
structure Dicti where
  kind : StoreKind
  store : List (Key × Value)
  caseTbl : List (Key × Key)
deriving DecidableEq

/-- A freshly constructed empty container. -/
def emptyD (k : StoreKind) : Dicti :=
  ⟨k, [], []⟩

/-- `__getitem__`: `dict_.__getitem__(self, self.__case[_lower(key)])`.
`none` models `KeyError`. -/
def getitem (d : Dicti) (key : Key) : Option Value :=
  match alookup (plower key) d.caseTbl with
  | some orig => alookup orig d.store
  | none => none

/-- `__contains__`: `_lower(key) in self.__case`. -/
def contains (d : Dicti) (key : Key) : Bool :=
  amem (plower key) d.caseTbl

/-- `__delitem__`: look up the original-case key in `__case` (may raise),
delete it from the backing store (may raise), then drop the `__case` entry.
`none` models `KeyError`; on failure nothing has been mutated yet. -/
def delitem (d : Dicti) (key : Key) : Option Dicti :=
  match alookup (plower key) d.caseTbl with
  | none => none
  | some orig =>
    if amem orig d.store then
      some ⟨d.kind, aerase orig d.store, aerase (plower key) d.caseTbl⟩
    else none

/-- `__setitem__`: `if key in self: del self[key]`, then
`dict_.__setitem__(self, key, value)` and `self.__case[_lower(key)] = key`.
The delete-then-insert re-adds the key at the end of an ordered store. -/
def setitem (d : Dicti) (key : Key) (v : Value) : Option Dicti :=
  match (if contains d key then delitem d key else some d) with
  | none => none
  | some d1 => some ⟨d1.kind, ainsert key v d1.store, ainsert (plower key) key d1.caseTbl⟩

/-- `clear`: `dict_.clear(self)` then `self.__case.clear()`. -/
def clearD (d : Dicti) : Dicti :=
  ⟨d.kind, [], []⟩

/-- `MutableMapping.get`: `self[key]` with a default on `KeyError`. -/
def getD (d : Dicti) (key : Key) (default : Option Value) : Option Value :=
  match getitem d key with
  | some v => some v
  | none => default

/-- `pop`: if the key is contained, read then delete and return the value;
otherwise return the default if one was supplied, else raise `KeyError`
(modelled as `none`). -/
def pop (d : Dicti) (key : Key) (default : Option Value) : Option (Value × Dicti) :=
  if contains d key then
    match getitem d key with
    | none => none
    | some v =>
      match delitem d key with
      | none => none
      | some d2 => some (v, d2)
  else
    match default with
    | some dv => some (dv, d)
    | none => none

/-- `MutableMapping.update` applied to a sequence of pairs:
`for key, value in other: self[key] = value`.  The constructor funnels its
arguments through this. -/
def updPairs (d : Dicti) : List (Key × Value) → Option Dicti
  | [] => some d
  | p :: ps =>
    match setitem d p.1 p.2 with
    | some d1 => updPairs d1 ps
    | none => none

/-- Construction from a pair sequence: `__init__` makes the container empty
and then updates from the argument. -/
def fromPairs (k : StoreKind) (ps : List (Key × Value)) : Option Dicti :=
  updPairs (emptyD k) ps

/-- `keys()`: the original-case keys in backing-store order. -/
def keysD (d : Dicti) : List Key :=
  d.store.map Prod.fst

/-- `values()`: the values in backing-store order. -/
def valuesD (d : Dicti) : List Value :=
  d.store.map Prod.snd

/-- `items()` / `list(d.items())`, the exported pair sequence (this is also
what `__repr__` renders). -/
def to_pairs (d : Dicti) : List (Key × Value) :=
  d.store

/-- `lower_items()` materialised: `(_lower(k), v)` for each item. -/
def lowerList (d : Dicti) : List (Key × Value) :=
  d.store.map (fun p => (plower p.1, p.2))

/-- Equality of two plain `dict`s with the given items: the same keys bound to
the same values, irrespective of order. -/
def dictBeq (l1 l2 : List (Key × Value)) : Bool :=
  l1.all (fun p => decide (alookup p.1 l2 = some p.2)) &&
    l2.all (fun p => decide (alookup p.1 l1 = some p.2))

/-- `__eq__` between two case-insensitive containers (both already have
`lower_dict`, so no wrapping occurs): compare `self.lower_dict()` with
`other.lower_dict()` using the backing types' equality, which is
order-sensitive exactly when both sides are `OrderedDict`s. -/
def eqD (a b : Dicti) : Bool :=
  match a.kind, b.kind with
  | .ordered, .ordered => decide (lowerList a = lowerList b)
  | _, _ => dictBeq (lowerList a) (lowerList b)

/-- Helper for the current `__copy__`: `MutableMapping.update` over a mapping
argument iterates its keys and reads each value with `other[key]`. -/
def copyAux (src : Dicti) : List Key → Dicti → Option Dicti
  | [], acc => some acc
  | k :: ks, acc =>
    match getitem src k with
    | none => none
    | some v =>
      match setitem acc k v with
      | some acc1 => copyAux src ks acc1
      | none => none

/-- The current `__copy__` (pydicti.py): `self.__class__(self)`, i.e. a fresh
empty container of the same class updated from `self` as a mapping. -/
def copyCur (d : Dicti) : Option Dicti :=
  copyAux d (keysD d) (emptyD d.kind)

/-- `__setitem__` of the historical snapshot (`pydicti/__init__.py`): delete
the base-store entry for the old casing directly (without touching `__case`),
insert, then overwrite the `__case` entry. -/
def setitemOld (d : Dicti) (key : Key) (v : Value) : Option Dicti :=
  match alookup (plower key) d.caseTbl with
  | some orig =>
    if amem orig d.store then
      some ⟨d.kind, ainsert key v (aerase orig d.store), ainsert (plower key) key d.caseTbl⟩
    else none
  | none => some ⟨d.kind, ainsert key v d.store, ainsert (plower key) key d.caseTbl⟩

/-- `update` of the historical snapshot over a pair sequence. -/
def updPairsOld (d : Dicti) : List (Key × Value) → Option Dicti
  | [] => some d
  | p :: ps =>
    match setitemOld d p.1 p.2 with
    | some d1 => updPairsOld d1 ps
    | none => none

/-- Unpack every element of a `values()` sequence as a `(key, value)` pair, as
`MutableMapping.update` does for a non-mapping argument; fails (`TypeError`)
as soon as a value is not a 2-tuple, and a failure inside the constructor
discards the partly built object. -/
def unpackPairs : List Value → Option (List (Key × Value))
  | [] => some []
  | v :: vs =>
    match asPair v with
    | some p => (unpackPairs vs).map (p :: ·)
    | none => none

/-- The historical `__copy__` (`pydicti/__init__.py`):
`self.__class__(self.values())` — a fresh container built by updating from the
*values* sequence, each value unpacked as a pair. -/
def copyOld (d : Dicti) : Option Dicti :=
  match unpackPairs (valuesD d) with
  | some ps => updPairsOld (emptyD d.kind) ps
  | none => none

/-- The dual-index invariant: every `__case` entry `(low, orig)` satisfies
`_lower(orig) = low` and `orig` is a backing-store key; every backing-store
key is recovered from `__case` by its lower case; both indices are duplicate
free and have equal size. -/
def wfD (d : Dicti) : Prop :=
  (∀ p ∈ d.caseTbl, plower p.2 = p.1 ∧ amem p.2 d.store = true) ∧
  (∀ q ∈ d.store, alookup (plower q.1) d.caseTbl = some q.1) ∧
  nodupKeys d.caseTbl = true ∧
  nodupKeys d.store = true ∧
  d.caseTbl.length = d.store.length

/-- States reachable from an empty container through the mutating
operations. -/
inductive Reach : Dicti → Prop where
  | emp (k : StoreKind) : Reach (emptyD k)
  | set {d d' : Dicti} {k : Key} {v : Value} :
      Reach d → setitem d k v = some d' → Reach d'
  | del {d d' : Dicti} {k : Key} :
      Reach d → delitem d k = some d' → Reach d'
  | popR {d d' : Dicti} {k : Key} {dv : Option Value} {v : Value} :
      Reach d → pop d k dv = some (v, d') → Reach d'
  | upd {d d' : Dicti} {ps : List (Key × Value)} :
      Reach d → updPairs d ps = some d' → Reach d'
  | clr {d : Dicti} : Reach d → Reach (clearD d)

/-- The backing-store kinds a caller might hand to the factory: the two
mapping types actually used, and some non-mapping types. -/
inductive BaseKind where
  | pdict
  | podict
  | plist
  | pstr
  | pint
deriving DecidableEq

/-- `issubclass(base, MutableMapping)`. -/
def isMutableMappingSub : BaseKind → Bool
  | .pdict => true
  | .podict => true
  | _ => false

/-- The module-level registry `_built_dicties` plus a supply of fresh class
identities: two built classes are `is`-identical exactly when their `Nat`
identities coincide. -/
structure FactoryState where
  built : List (BaseKind × Nat)
  next : Nat
deriving DecidableEq

/-- `build_dicti`: look the base up in `_built_dicties`; on a miss, reject a
base that is not a `MutableMapping` subclass (`TypeError`), otherwise create
a new class and memoize it. -/
def build_dicti (st : FactoryState) (base : BaseKind) :
    Except String (Nat × FactoryState) :=
  match alookup base st.built with
  | some cls => .ok (cls, st)
  | none =>
    if isMutableMappingSub base then
      .ok (st.next, ⟨st.built ++ [(base, st.next)], st.next + 1⟩)
    else
      .error "Not a mapping type"

/-- The registry before any class has been built. -/
def freshState : FactoryState :=
  ⟨[], 0⟩

/-- Module import: `dicti = build_dicti(dict)` then
`odicti = build_dicti(OrderedDict)`. -/
def moduleInit : Except String (Nat × Nat × FactoryState) :=
  match build_dicti freshState .pdict with
  | .error e => .error e
  | .ok (dictiCls, st1) =>
    match build_dicti st1 .podict with
    | .error e => .error e
    | .ok (odictiCls, st2) => .ok (dictiCls, odictiCls, st2)

/-- The function `Dicti(obj)`: `build_dicti(type(obj))(obj)` — its class is
the memoized variant for the object's own type. -/
def DictiFn (st : FactoryState) (objType : BaseKind) :
    Except String (Nat × FactoryState) :=
  build_dicti st objType

/-- Registry invariant: only `MutableMapping` subclasses ever get memoized. -/
def wfF (st : FactoryState) : Prop :=
  ∀ p ∈ st.built, isMutableMappingSub p.1 = true

end Pydicti

namespace Pydicti

instance (d : Dicti) : Decidable (wfD d) := by
  unfold wfD; exact inferInstance

instance (st : FactoryState) : Decidable (wfF st) := by
  unfold wfF; exact inferInstance

section AListLemmas

variable {α β : Type} [DecidableEq α]

theorem alookup_eq_none_iff {k : α} {l : List (α × β)} :
    alookup k l = none ↔ ∀ p ∈ l, p.1 ≠ k := by
  induction l with
  | nil => simp [alookup]
  | cons p l ih =>
    rw [alookup]
    by_cases hp : p.1 = k
    · simp [hp]
    · simp [hp, ih]

theorem amem_false_iff {k : α} {l : List (α × β)} :
    amem k l = false ↔ ∀ p ∈ l, p.1 ≠ k := by
  rw [← alookup_eq_none_iff, amem]
  cases alookup k l <;> simp

theorem alookup_mem {k : α} {v : β} {l : List (α × β)} (h : alookup k l = some v) :
    (k, v) ∈ l := by
  induction l with
  | nil => simp [alookup] at h
  | cons p l ih =>
    rw [alookup] at h
    by_cases hp : p.1 = k
    · rw [if_pos hp] at h
      cases h
      subst hp
      simp
    · rw [if_neg hp] at h
      exact List.mem_cons_of_mem p (ih h)

theorem amem_of_alookup_some {k : α} {v : β} {l : List (α × β)}
    (h : alookup k l = some v) : amem k l = true := by
  rw [amem, h]; rfl

theorem alookup_of_mem_nodup {k : α} {v : β} {l : List (α × β)}
    (hnd : nodupKeys l = true) (h : (k, v) ∈ l) : alookup k l = some v := by
  induction l with
  | nil => cases h
  | cons p l ih =>
    rw [nodupKeys, Bool.and_eq_true, Bool.not_eq_true'] at hnd
    rcases List.mem_cons.mp h with h1 | h1
    · rw [← h1, alookup]; simp
    · have hk : p.1 ≠ k := by
        intro he
        exact amem_false_iff.mp hnd.1 (k, v) h1 he.symm
      rw [alookup, if_neg hk]
      exact ih hnd.2 h1

theorem alookup_append (k : α) (l1 l2 : List (α × β)) :
    alookup k (l1 ++ l2) =
      match alookup k l1 with
      | some v => some v
      | none => alookup k l2 := by
  induction l1 with
  | nil => simp [alookup]
  | cons p l ih =>
    rw [List.cons_append, alookup, alookup]
    by_cases hp : p.1 = k
    · simp [hp]
    · simp [hp, ih]

theorem ainsert_eq_append {k : α} {l : List (α × β)} (h : amem k l = false) (v : β) :
    ainsert k v l = l ++ [(k, v)] := by
  induction l with
  | nil => rfl
  | cons p l ih =>
    rw [amem_false_iff] at h
    rw [ainsert, if_neg (h p (List.mem_cons_self p l)), List.cons_append]
    congr 1
    exact ih (amem_false_iff.mpr fun q hq => h q (List.mem_cons_of_mem p hq))

theorem aerase_eq_self {k : α} {l : List (α × β)} (h : amem k l = false) :
    aerase k l = l := by
  induction l with
  | nil => rfl
  | cons p l ih =>
    rw [amem_false_iff] at h
    rw [aerase, if_neg (h p (List.mem_cons_self p l))]
    congr 1
    exact ih (amem_false_iff.mpr fun q hq => h q (List.mem_cons_of_mem p hq))

theorem alookup_aerase_ne {k k' : α} (h : k' ≠ k) (l : List (α × β)) :
    alookup k' (aerase k l) = alookup k' l := by
  induction l with
  | nil => rfl
  | cons p l ih =>
    rw [aerase]
    by_cases hp : p.1 = k
    · rw [if_pos hp, alookup, if_neg (fun he => h (hp.symm.trans he).symm)]
    · rw [if_neg hp, alookup, alookup, ih]

theorem mem_aerase {k : α} {p : α × β} {l : List (α × β)} (h : p ∈ aerase k l) :
    p ∈ l := by
  induction l with
  | nil => cases h
  | cons q l ih =>
    rw [aerase] at h
    by_cases hq : q.1 = k
    · rw [if_pos hq] at h
      exact List.mem_cons_of_mem q h
    · rw [if_neg hq] at h
      rcases List.mem_cons.mp h with h1 | h1
      · exact h1 ▸ List.mem_cons_self q l
      · exact List.mem_cons_of_mem q (ih h1)

theorem mem_aerase_ne {k : α} {p : α × β} {l : List (α × β)}
    (hnd : nodupKeys l = true) (h : p ∈ aerase k l) : p.1 ≠ k := by
  induction l with
  | nil => cases h
  | cons q l ih =>
    rw [nodupKeys, Bool.and_eq_true, Bool.not_eq_true'] at hnd
    rw [aerase] at h
    by_cases hq : q.1 = k
    · rw [if_pos hq] at h
      rw [← hq]
      exact amem_false_iff.mp hnd.1 p h
    · rw [if_neg hq] at h
      rcases List.mem_cons.mp h with h1 | h1
      · rw [h1]; exact hq
      · exact ih hnd.2 h1

theorem alookup_aerase_self {k : α} {l : List (α × β)} (hnd : nodupKeys l = true) :
    alookup k (aerase k l) = none := by
  rw [alookup_eq_none_iff]
  exact fun p hp => mem_aerase_ne hnd hp

theorem amem_aerase_false {k x : α} {l : List (α × β)} (h : amem k l = false) :
    amem k (aerase x l) = false := by
  rw [amem_false_iff] at h ⊢
  exact fun p hp => h p (mem_aerase hp)

theorem nodupKeys_aerase {k : α} {l : List (α × β)} (h : nodupKeys l = true) :
    nodupKeys (aerase k l) = true := by
  induction l with
  | nil => rfl
  | cons p l ih =>
    rw [nodupKeys, Bool.and_eq_true, Bool.not_eq_true'] at h
    rw [aerase]
    by_cases hp : p.1 = k
    · rw [if_pos hp]; exact h.2
    · rw [if_neg hp, nodupKeys, Bool.and_eq_true, Bool.not_eq_true']
      exact ⟨amem_aerase_false h.1, ih h.2⟩

theorem length_aerase {k : α} {l : List (α × β)} (h : amem k l = true) :
    (aerase k l).length + 1 = l.length := by
  induction l with
  | nil => simp [amem, alookup] at h
  | cons p l ih =>
    rw [aerase]
    by_cases hp : p.1 = k
    · rw [if_pos hp]; rfl
    · rw [amem, alookup, if_neg hp] at h
      rw [if_neg hp, List.length_cons, List.length_cons, ih h]

theorem nodupKeys_append_singleton {k : α} {l : List (α × β)}
    (hnd : nodupKeys l = true) (h : amem k l = false) (v : β) :
    nodupKeys (l ++ [(k, v)]) = true := by
  induction l with
  | nil => rfl
  | cons p l ih =>
    rw [nodupKeys, Bool.and_eq_true, Bool.not_eq_true'] at hnd
    rw [amem_false_iff] at h
    rw [List.cons_append, nodupKeys, Bool.and_eq_true, Bool.not_eq_true']
    constructor
    · rw [amem_false_iff]
      intro q hq
      rcases List.mem_append.mp hq with h1 | h1
      · exact amem_false_iff.mp hnd.1 q h1
      · rw [List.mem_singleton] at h1
        rw [h1]
        exact fun he => (h p (List.mem_cons_self p l)) he.symm
    · exact ih hnd.2 (amem_false_iff.mpr fun q hq => h q (List.mem_cons_of_mem p hq))

theorem nodupKeys_iff_pairwise {l : List (α × β)} :
    nodupKeys l = true ↔ l.Pairwise (fun p q => p.1 ≠ q.1) := by
  induction l with
  | nil => simp [nodupKeys]
  | cons p l ih =>
    rw [nodupKeys, Bool.and_eq_true, Bool.not_eq_true', List.pairwise_cons, amem_false_iff, ih]
    constructor
    · rintro ⟨h1, h2⟩
      exact ⟨fun q hq => (h1 q hq).symm, h2⟩
    · rintro ⟨h1, h2⟩
      exact ⟨fun q hq => (h1 q hq).symm, h2⟩

end AListLemmas

end Pydicti

namespace Pydicti

theorem wfD_empty (k : StoreKind) : wfD (emptyD k) := by
  refine ⟨?_, ?_, rfl, rfl, rfl⟩ <;> intro p hp <;> cases hp

theorem wfD_clear (d : Dicti) : wfD (clearD d) := by
  refine ⟨?_, ?_, rfl, rfl, rfl⟩ <;> intro p hp <;> cases hp

/-- A successful `__case` lookup yields an original key that lowers back to
the probe and is present in the backing store. -/
theorem case_lookup_facts {d : Dicti} {low orig : Key} (hw : wfD d)
    (h : alookup low d.caseTbl = some orig) :
    plower orig = low ∧ amem orig d.store = true :=
  hw.1 (low, orig) (alookup_mem h)

/-- A key of the backing store is recovered by `__case` from its lower case,
so no other original key can share its lower case. -/
theorem store_key_unique {d : Dicti} {k : Key} {w : Value} (hw : wfD d)
    (h : (k, w) ∈ d.store) : alookup (plower k) d.caseTbl = some k :=
  hw.2.1 (k, w) h

/-- If the lower case of `k` is absent from `__case` then `k` itself is
absent from the backing store. -/
theorem store_amem_false {d : Dicti} {k : Key} (hw : wfD d)
    (h : amem (plower k) d.caseTbl = false) : amem k d.store = false := by
  cases hl : alookup k d.store with
  | none => rw [amem, hl]; rfl
  | some w =>
    have := store_key_unique hw (alookup_mem hl)
    rw [amem, this] at h
    cases h

/-- Removing one entry from both indices (as `__delitem__` does) preserves the
dual-index invariant. -/
theorem wfD_erase {d : Dicti} {low orig : Key} (hw : wfD d)
    (h : alookup low d.caseTbl = some orig) :
    wfD ⟨d.kind, aerase orig d.store, aerase low d.caseTbl⟩ := by
  obtain ⟨h1, h2, h3, h4, h5⟩ := hw
  obtain ⟨hlow, hmem⟩ := case_lookup_facts ⟨h1, h2, h3, h4, h5⟩ h
  refine ⟨?_, ?_, nodupKeys_aerase h3, nodupKeys_aerase h4, ?_⟩
  · intro p hp
    have hp' : p ∈ d.caseTbl := mem_aerase hp
    obtain ⟨hpl, hpm⟩ := h1 p hp'
    refine ⟨hpl, ?_⟩
    have hne : p.2 ≠ orig := by
      intro he
      have : p.1 = low := by rw [← hpl, he, hlow]
      exact mem_aerase_ne h3 hp this
    show (alookup p.2 (aerase orig d.store)).isSome = true
    rw [alookup_aerase_ne hne]
    exact hpm
  · intro q hq
    have hq' : q ∈ d.store := mem_aerase hq
    have h2q := h2 q hq'
    have hne : plower q.1 ≠ low := by
      intro he
      rw [he, h] at h2q
      cases h2q
      exact mem_aerase_ne h4 hq rfl
    rw [alookup_aerase_ne hne]
    exact h2q
  · have hc := length_aerase (l := d.caseTbl) (amem_of_alookup_some h)
    have hs := length_aerase (l := d.store) hmem
    show (aerase low d.caseTbl).length = (aerase orig d.store).length
    omega

/-- Appending a genuinely new entry to both indices (as `__setitem__` does
after any delete) preserves the dual-index invariant. -/
theorem wfD_append {d : Dicti} {k : Key} (hw : wfD d)
    (hfresh : amem (plower k) d.caseTbl = false) (v : Value) :
    wfD ⟨d.kind, d.store ++ [(k, v)], d.caseTbl ++ [(plower k, k)]⟩ := by
  obtain ⟨h1, h2, h3, h4, h5⟩ := hw
  have hks : amem k d.store = false := store_amem_false ⟨h1, h2, h3, h4, h5⟩ hfresh
  refine ⟨?_, ?_, nodupKeys_append_singleton h3 hfresh k,
    nodupKeys_append_singleton h4 hks v, ?_⟩
  · intro p hp
    rcases List.mem_append.mp hp with h1' | h1'
    · obtain ⟨hpl, hpm⟩ := h1 p h1'
      refine ⟨hpl, ?_⟩
      show (alookup p.2 (d.store ++ [(k, v)])).isSome = true
      rw [alookup_append]
      rw [amem] at hpm
      cases hl : alookup p.2 d.store with
      | none => rw [hl] at hpm; cases hpm
      | some w => rfl
    · rw [List.mem_singleton] at h1'
      rw [h1']
      refine ⟨rfl, ?_⟩
      show (alookup k (d.store ++ [(k, v)])).isSome = true
      rw [alookup_append]
      rw [amem] at hks
      cases hl : alookup k d.store with
      | none => simp [alookup]
      | some w => rw [hl] at hks; cases hks
  · intro q hq
    rcases List.mem_append.mp hq with h1' | h1'
    · have h2q := h2 q h1'
      rw [alookup_append, h2q]
    · rw [List.mem_singleton] at h1'
      rw [h1']
      rw [alookup_append]
      rw [amem] at hfresh
      cases hl : alookup (plower k) d.caseTbl with
      | none => simp [alookup]
      | some o => rw [hl] at hfresh; cases hfresh
  · show (d.caseTbl ++ [(plower k, k)]).length = (d.store ++ [(k, v)]).length
    rw [List.length_append, List.length_append, h5, List.length_singleton,
      List.length_singleton]

theorem delitem_none_of_not_contains {d : Dicti} {k : Key}
    (h : contains d k = false) : delitem d k = none := by
  rw [contains, amem] at h
  rw [delitem]
  cases hl : alookup (plower k) d.caseTbl with
  | none => rfl
  | some orig => rw [hl] at h; cases h

theorem contains_of_delitem_some {d d' : Dicti} {k : Key}
    (h : delitem d k = some d') : contains d k = true := by
  rw [delitem] at h
  rw [contains, amem]
  cases hl : alookup (plower k) d.caseTbl with
  | none => rw [hl] at h; cases h
  | some orig => rfl

/-- `__delitem__` on a contained key: it succeeds, erases the entry from both
indices, and preserves the invariant. -/
theorem delitem_spec {d : Dicti} {k : Key} (hw : wfD d)
    (h : contains d k = true) :
    ∃ orig, alookup (plower k) d.caseTbl = some orig ∧
      delitem d k = some ⟨d.kind, aerase orig d.store, aerase (plower k) d.caseTbl⟩ ∧
      wfD ⟨d.kind, aerase orig d.store, aerase (plower k) d.caseTbl⟩ := by
  rw [contains, amem] at h
  cases hl : alookup (plower k) d.caseTbl with
  | none => rw [hl] at h; cases h
  | some orig =>
    refine ⟨orig, rfl, ?_, wfD_erase hw hl⟩
    rw [delitem, hl]
    simp [(case_lookup_facts hw hl).2]

end Pydicti

namespace Pydicti

/-- `__setitem__` under the invariant: it always succeeds, ends with
`__case` binding `_lower(key)` to the new casing at the end of the side
table, and appends the entry at the end of the backing store — after first
removing the previously stored entry for that lower case, if any.  The
invariant is preserved. -/
theorem setitem_spec {d : Dicti} (hw : wfD d) (k : Key) (v : Value) :
    setitem d k v = some
      ⟨d.kind,
       (match alookup (plower k) d.caseTbl with
        | some orig => aerase orig d.store
        | none => d.store) ++ [(k, v)],
       aerase (plower k) d.caseTbl ++ [(plower k, k)]⟩ ∧
    wfD ⟨d.kind,
       (match alookup (plower k) d.caseTbl with
        | some orig => aerase orig d.store
        | none => d.store) ++ [(k, v)],
       aerase (plower k) d.caseTbl ++ [(plower k, k)]⟩ := by
  by_cases hc : contains d k = true
  · obtain ⟨orig, hl, hdel, hwd⟩ := delitem_spec hw hc
    rw [hl]
    have hfresh : amem (plower k) (aerase (plower k) d.caseTbl) = false := by
      rw [amem, alookup_aerase_self hw.2.2.1]; rfl
    have hkabs : amem k (aerase orig d.store) = false := by
      by_cases hko : k = orig
      · rw [amem, hko, alookup_aerase_self hw.2.2.2.1]; rfl
      · have hkst : amem k d.store = false := by
          cases hst : alookup k d.store with
          | none => rw [amem, hst]; rfl
          | some w =>
            have := store_key_unique hw (alookup_mem hst)
            rw [this] at hl
            cases hl
            exact absurd rfl hko
        exact amem_aerase_false hkst
    constructor
    · rw [setitem, hc, if_pos rfl, hdel]
      simp only []
      rw [ainsert_eq_append hkabs, ainsert_eq_append hfresh]
    · have := wfD_append (d := ⟨d.kind, aerase orig d.store, aerase (plower k) d.caseTbl⟩)
        hwd hfresh v
      exact this
  · rw [Bool.not_eq_true] at hc
    have hl : alookup (plower k) d.caseTbl = none := by
      rw [contains, amem] at hc
      cases hl : alookup (plower k) d.caseTbl with
      | none => rfl
      | some o => rw [hl] at hc; cases hc
    rw [hl]
    have hfresh : amem (plower k) d.caseTbl = false := by rw [amem, hl]; rfl
    have heq : aerase (plower k) d.caseTbl = d.caseTbl := aerase_eq_self hfresh
    rw [heq]
    constructor
    · rw [setitem, hc]
      show (some ⟨d.kind, ainsert k v d.store, ainsert (plower k) k d.caseTbl⟩ : Option Dicti) =
        some ⟨d.kind, d.store ++ [(k, v)], d.caseTbl ++ [(plower k, k)]⟩
      rw [ainsert_eq_append (store_amem_false hw hfresh) v,
        ainsert_eq_append hfresh k]
    · exact wfD_append hw hfresh v

/-- Convenience form: `set` never fails and preserves the invariant. -/
theorem setitem_wf {d : Dicti} (hw : wfD d) (k : Key) (v : Value) :
    ∃ d', setitem d k v = some d' ∧ wfD d' ∧ d'.kind = d.kind :=
  ⟨_, (setitem_spec hw k v).1, (setitem_spec hw k v).2, rfl⟩

theorem getitem_none_of_not_contains {d : Dicti} {k : Key}
    (h : contains d k = false) : getitem d k = none := by
  rw [contains, amem] at h
  rw [getitem]
  cases hl : alookup (plower k) d.caseTbl with
  | none => rfl
  | some orig => rw [hl] at h; cases h

theorem getitem_some_of_contains {d : Dicti} {k : Key} (hw : wfD d)
    (h : contains d k = true) : ∃ v, getitem d k = some v := by
  rw [contains, amem] at h
  cases hl : alookup (plower k) d.caseTbl with
  | none => rw [hl] at h; cases h
  | some orig =>
    have hmem := (case_lookup_facts hw hl).2
    rw [amem] at hmem
    cases hst : alookup orig d.store with
    | none => rw [hst] at hmem; cases hmem
    | some v =>
      refine ⟨v, ?_⟩
      rw [getitem, hl]
      exact hst

/-- Under the invariant, reading the key of a stored entry returns exactly
its stored value. -/
theorem getitem_of_mem_store {d : Dicti} {q : Key × Value} (hw : wfD d)
    (hq : q ∈ d.store) : getitem d q.1 = some q.2 := by
  obtain ⟨k, v⟩ := q
  rw [getitem, store_key_unique hw hq]
  exact alookup_of_mem_nodup hw.2.2.2.1 hq

/-- `update` over a pair sequence never fails and preserves the invariant. -/
theorem updPairs_wf {ps : List (Key × Value)} :
    ∀ {d : Dicti}, wfD d →
      ∃ d', updPairs d ps = some d' ∧ wfD d' ∧ d'.kind = d.kind := by
  induction ps with
  | nil => exact fun hw => ⟨_, rfl, hw, rfl⟩
  | cons p ps ih =>
    intro d hw
    obtain ⟨d1, hs, hw1, hk1⟩ := setitem_wf hw p.1 p.2
    obtain ⟨d2, hu, hw2, hk2⟩ := ih hw1
    refine ⟨d2, ?_, hw2, hk2.trans hk1⟩
    rw [updPairs, hs]
    exact hu

theorem updPairs_wf_of_eq {ps : List (Key × Value)} :
    ∀ {d d' : Dicti}, wfD d → updPairs d ps = some d' → wfD d' ∧ d'.kind = d.kind := by
  induction ps with
  | nil =>
    intro d d' hw h
    cases h
    exact ⟨hw, rfl⟩
  | cons p ps ih =>
    intro d d' hw h
    rw [updPairs] at h
    obtain ⟨d1, hs, hw1, hk1⟩ := setitem_wf hw p.1 p.2
    rw [hs] at h
    obtain ⟨hw2, hk2⟩ := ih hw1 h
    exact ⟨hw2, hk2.trans hk1⟩

end Pydicti

namespace Pydicti

theorem contains_false_alookup {d : Dicti} {k : Key} (hc : contains d k = false) :
    alookup (plower k) d.caseTbl = none := by
  rw [contains, amem] at hc
  cases hl : alookup (plower k) d.caseTbl with
  | none => rfl
  | some o => rw [hl] at hc; cases hc

/-- `__setitem__` on a key whose lower case is not yet present: both indices
are extended by one entry at the end. -/
theorem setitem_not_contained {d : Dicti} (hw : wfD d) {k : Key}
    (hc : contains d k = false) (v : Value) :
    setitem d k v = some ⟨d.kind, d.store ++ [(k, v)], d.caseTbl ++ [(plower k, k)]⟩ ∧
    wfD ⟨d.kind, d.store ++ [(k, v)], d.caseTbl ++ [(plower k, k)]⟩ := by
  have hl : alookup (plower k) d.caseTbl = none := contains_false_alookup hc
  have hfr : amem (plower k) d.caseTbl = false := by rw [amem, hl]; rfl
  obtain ⟨hset, hw1⟩ := setitem_spec hw k v
  rw [hl, aerase_eq_self hfr] at hset hw1
  exact ⟨hset, hw1⟩

/-- `update` over pairs whose lower-cased keys are fresh and pairwise distinct
appends exactly those pairs to the backing store. -/
theorem updPairs_fresh {ps : List (Key × Value)} :
    ∀ {acc : Dicti}, wfD acc →
      (∀ p ∈ ps, contains acc p.1 = false) →
      ps.Pairwise (fun p q => plower p.1 ≠ plower q.1) →
      ∃ d', updPairs acc ps = some d' ∧ wfD d' ∧ d'.kind = acc.kind ∧
        d'.store = acc.store ++ ps := by
  induction ps with
  | nil =>
    intro acc hw _ _
    exact ⟨acc, rfl, hw, rfl, (List.append_nil acc.store).symm⟩
  | cons p ps ih =>
    intro acc hw hfresh hpw
    have hc : contains acc p.1 = false := hfresh p (List.mem_cons_self p ps)
    obtain ⟨hset, hw1⟩ := setitem_not_contained hw hc p.2
    rw [List.pairwise_cons] at hpw
    have hfresh' : ∀ q ∈ ps, contains (⟨acc.kind, acc.store ++ [(p.1, p.2)],
        acc.caseTbl ++ [(plower p.1, p.1)]⟩ : Dicti) q.1 = false := by
      intro q hq
      show (alookup (plower q.1) (acc.caseTbl ++ [(plower p.1, p.1)])).isSome = false
      rw [alookup_append, contains_false_alookup (hfresh q (List.mem_cons_of_mem p hq))]
      show (alookup (plower q.1) [(plower p.1, p.1)]).isSome = false
      rw [alookup, if_neg (hpw.1 q hq)]
      rfl
    obtain ⟨d2, hupd, hw2, hk2, hs2⟩ := ih hw1 hfresh' hpw.2
    refine ⟨d2, ?_, hw2, hk2, ?_⟩
    · rw [updPairs, hset]
      exact hupd
    · rw [hs2]
      show acc.store ++ [(p.1, p.2)] ++ ps = acc.store ++ p :: ps
      rw [List.append_assoc]
      rfl

/-- Under the invariant, distinct stored keys have distinct lower cases. -/
theorem store_pairwise_lower {d : Dicti} (hw : wfD d) :
    d.store.Pairwise (fun p q => plower p.1 ≠ plower q.1) := by
  have hp := nodupKeys_iff_pairwise.mp hw.2.2.2.1
  refine hp.imp_of_mem ?_
  intro a b ha hb hne he
  have h2a := hw.2.1 a ha
  have h2b := hw.2.1 b hb
  rw [he, h2b] at h2a
  injection h2a with hh
  exact hne hh.symm

/-- The lower-cased projection of a well-formed container has no duplicate
keys. -/
theorem nodupKeys_lowerList {d : Dicti} (hw : wfD d) :
    nodupKeys (lowerList d) = true := by
  rw [nodupKeys_iff_pairwise, lowerList, List.pairwise_map]
  exact (store_pairwise_lower hw).imp_of_mem (fun _ _ h => h)

/-- Containers with the same configuration and the same backing store compare
equal in both directions. -/
theorem eqD_of_same_store {a b : Dicti} (hw : wfD b) (hk : a.kind = b.kind)
    (hs : a.store = b.store) : eqD a b = true ∧ eqD b a = true := by
  have hll : lowerList a = lowerList b := by rw [lowerList, lowerList, hs]
  have hself : ∀ p ∈ lowerList b, alookup p.1 (lowerList b) = some p.2 := by
    intro p hp
    obtain ⟨k, v⟩ := p
    exact alookup_of_mem_nodup (nodupKeys_lowerList hw) hp
  have hbeq : dictBeq (lowerList b) (lowerList b) = true := by
    rw [dictBeq, Bool.and_eq_true, List.all_eq_true]
    constructor
    · intro p hp
      rw [decide_eq_true_eq]
      exact hself p hp
    · intro p hp
      rw [decide_eq_true_eq]
      exact hself p hp
  constructor
  · rw [eqD, hk, hll]
    cases b.kind with
    | unordered => exact hbeq
    | ordered => rw [decide_eq_true_eq]
  · rw [eqD, hk, hll]
    cases b.kind with
    | unordered => exact hbeq
    | ordered => rw [decide_eq_true_eq]

/-- Rebuilding a well-formed container from its exported items gives back the
same configuration and backing store. -/
theorem rebuild_core {d : Dicti} (hw : wfD d) :
    ∃ d', fromPairs d.kind (to_pairs d) = some d' ∧ wfD d' ∧
      d'.kind = d.kind ∧ d'.store = d.store := by
  obtain ⟨d', h1, h2, h3, h4⟩ :=
    updPairs_fresh (wfD_empty d.kind)
      (fun p _ => by rw [contains]; rfl)
      (store_pairwise_lower hw)
  exact ⟨d', h1, h2, h3, h4⟩

/-- Iterating a source container's keys and reading each value is the same as
updating from its item sequence. -/
theorem copyAux_eq_updPairs {src : Dicti} (hw : wfD src) :
    ∀ (qs : List (Key × Value)) (acc : Dicti), (∀ q ∈ qs, q ∈ src.store) →
      copyAux src (qs.map Prod.fst) acc = updPairs acc qs := by
  intro qs
  induction qs with
  | nil => intro acc _; rfl
  | cons q qs ih =>
    intro acc hmem
    rw [List.map_cons, copyAux,
      getitem_of_mem_store hw (hmem q (List.mem_cons_self q qs)), updPairs]
    show (match setitem acc q.1 q.2 with
          | some acc1 => copyAux src (List.map Prod.fst qs) acc1
          | none => none) =
        (match setitem acc q.1 q.2 with
          | some d1 => updPairs d1 qs
          | none => none)
    cases hs : setitem acc q.1 q.2 with
    | none => rfl
    | some acc1 => exact ih acc1 (fun r hr => hmem r (List.mem_cons_of_mem q hr))

/-- The current `__copy__` is construction from the exported items. -/
theorem copyCur_eq_fromPairs {d : Dicti} (hw : wfD d) :
    copyCur d = fromPairs d.kind (to_pairs d) := by
  rw [copyCur, keysD, copyAux_eq_updPairs hw d.store (emptyD d.kind) (fun q hq => hq)]
  rfl

/-- Reconstruction from `values()` fails as soon as one value is not a
2-tuple. -/
theorem unpackPairs_none {vs : List Value} {v : Value} (hv : v ∈ vs)
    (h : asPair v = none) : unpackPairs vs = none := by
  induction vs with
  | nil => cases hv
  | cons w vs ih =>
    rw [unpackPairs]
    rcases List.mem_cons.mp hv with h1 | h1
    · rw [← h1, h]
    · cases hw : asPair w with
      | none => rfl
      | some p => rw [ih h1]; rfl

end Pydicti

namespace Pydicti

/-- After the delete step of `__setitem__`, the new casing `k` is absent from
the backing store, so the base-store insert appends. -/
theorem setitem_store_fresh {d : Dicti} (hw : wfD d) (k : Key) :
    amem k (match alookup (plower k) d.caseTbl with
      | some orig => aerase orig d.store
      | none => d.store) = false := by
  cases hl : alookup (plower k) d.caseTbl with
  | some orig =>
    by_cases hko : k = orig
    · rw [amem, hko, alookup_aerase_self hw.2.2.2.1]; rfl
    · have hkst : amem k d.store = false := by
        cases hst : alookup k d.store with
        | none => rw [amem, hst]; rfl
        | some w =>
          have hkey := store_key_unique hw (alookup_mem hst)
          rw [hkey] at hl
          injection hl with hh
          exact absurd hh hko
      exact amem_aerase_false hkst
  | none =>
    exact store_amem_false hw (by rw [amem, hl]; rfl)

/-- After `__setitem__`, the side table binds `_lower(k)` to the new casing
`k` and the backing store binds `k` to the new value. -/
theorem setitem_lookup {d : Dicti} (hw : wfD d) {k : Key} {v : Value}
    {d' : Dicti} (h : setitem d k v = some d') :
    alookup (plower k) d'.caseTbl = some k ∧ alookup k d'.store = some v := by
  obtain ⟨hset, _⟩ := setitem_spec hw k v
  rw [h] at hset
  injection hset with hset
  subst hset
  constructor
  · show alookup (plower k) (aerase (plower k) d.caseTbl ++ [(plower k, k)]) = some k
    rw [alookup_append, alookup_aerase_self hw.2.2.1]
    show alookup (plower k) [(plower k, k)] = some k
    rw [alookup, if_pos rfl]
  · show alookup k ((match alookup (plower k) d.caseTbl with
        | some orig => aerase orig d.store
        | none => d.store) ++ [(k, v)]) = some v
    have habs := setitem_store_fresh hw k
    rw [alookup_append]
    rw [amem] at habs
    cases hlk : alookup k (match alookup (plower k) d.caseTbl with
        | some orig => aerase orig d.store
        | none => d.store) with
    | some w => rw [hlk] at habs; cases habs
    | none =>
      show alookup k [(k, v)] = some v
      rw [alookup, if_pos rfl]

/-- `pop` on a contained key returns the contained value and the deleted
state. -/
theorem pop_some {d : Dicti} {k : Key} (hw : wfD d) (hc : contains d k = true)
    (dv : Option Value) :
    ∃ w d2, getitem d k = some w ∧ delitem d k = some d2 ∧
      pop d k dv = some (w, d2) := by
  obtain ⟨w, hgw⟩ := getitem_some_of_contains hw hc
  obtain ⟨orig, _, hdel, _⟩ := delitem_spec hw hc
  refine ⟨w, _, hgw, hdel, ?_⟩
  unfold pop
  rw [if_pos hc, hgw]
  show (match delitem d k with | none => none | some d2 => some (w, d2)) = _
  rw [hdel]

/-- `pop` with a default on an absent key returns the default and leaves the
container untouched. -/
theorem pop_default {d : Dicti} {k : Key} (hc : contains d k = false)
    (v0 : Value) : pop d k (some v0) = some (v0, d) := by
  unfold pop
  rw [hc]
  simp only [Bool.false_eq_true, if_false]

/-- `pop` without a default on an absent key raises `KeyError`. -/
theorem pop_none_of_not_contains {d : Dicti} {k : Key}
    (hc : contains d k = false) : pop d k none = none := by
  unfold pop
  rw [hc]
  simp only [Bool.false_eq_true, if_false]

/-- A base found in the registry is returned as is, with the registry left
unchanged. -/
theorem build_dicti_found {st : FactoryState} {b : BaseKind} {c : Nat}
    (h : alookup b st.built = some c) : build_dicti st b = .ok (c, st) := by
  rw [build_dicti, h]

/-- Once a first call to the factory has succeeded, an immediately repeated
call returns the identical class and the identical registry. -/
theorem build_dicti_idem {st st' : FactoryState} {b : BaseKind} {c : Nat}
    (h : build_dicti st b = .ok (c, st')) :
    build_dicti st' b = .ok (c, st') := by
  rw [build_dicti] at h
  cases hl : alookup b st.built with
  | some cls =>
    rw [hl] at h
    rw [Except.ok.injEq, Prod.mk.injEq] at h
    obtain ⟨hc, hst⟩ := h
    subst hc
    subst hst
    exact build_dicti_found hl
  | none =>
    rw [hl] at h
    by_cases hm : isMutableMappingSub b = true
    · rw [if_pos hm] at h
      rw [Except.ok.injEq, Prod.mk.injEq] at h
      obtain ⟨hc, hst⟩ := h
      subst hc
      subst hst
      apply build_dicti_found
      show alookup b (st.built ++ [(b, st.next)]) = some st.next
      rw [alookup_append, hl]
      show alookup b [(b, st.next)] = some st.next
      rw [alookup, if_pos rfl]
    · rw [Bool.not_eq_true] at hm
      rw [hm] at h
      simp only [Bool.false_eq_true, if_false] at h
      cases h

end Pydicti

namespace Pydicti

/-- C1: for every key `k`, every value `v`, and every casing variant `k'` of
`k` (same `_lower` image), `set(k, v)` on a well-formed container succeeds,
and then `get(k')` returns `v` and `contains(k')` is true. -/
theorem case_insensitive_lookup (d : Dicti) (k k' : Key) (v : Value)
    (hw : wfD d) (hk : plower k' = plower k) :
    ∃ d', setitem d k v = some d' ∧ getitem d' k' = some v ∧
      contains d' k' = true := by
  obtain ⟨d', hset, hw', _⟩ := setitem_wf hw k v
  obtain ⟨hcl, hsl⟩ := setitem_lookup hw hset
  refine ⟨d', hset, ?_, ?_⟩
  · rw [getitem, hk, hcl]
    exact hsl
  · rw [contains, hk, amem, hcl]
    rfl

theorem case_insensitive_lookup_witness :
    ∃ d', setitem (emptyD StoreKind.unordered) (Key.str "Hello") (Value.nat 7) = some d' ∧
      getitem d' (Key.str "HELLO") = some (Value.nat 7) ∧
      contains d' (Key.str "HELLO") = true :=
  case_insensitive_lookup (emptyD StoreKind.unordered) (Key.str "Hello")
    (Key.str "HELLO") (Value.nat 7) (by decide) (by decide)

/-- C2 counterexample: on the ordered variant built from `a ↦ 1, b ↦ 2`, a
pure value update `set("a", 5)` of the existing first entry moves it to the
end of the iteration order, so a re-set does change the entry's position. -/
theorem ordered_value_update_moves_position :
    (match fromPairs .ordered [(Key.str "a", Value.nat 1), (Key.str "b", Value.nat 2)] with
     | some o =>
        (match setitem o (Key.str "a") (Value.nat 5) with
         | some o2 => decide (keysD o = [Key.str "a", Key.str "b"]) &&
             decide (getitem o (Key.str "a") = some (Value.nat 1)) &&
             decide (keysD o2 = [Key.str "b", Key.str "a"])
         | none => false)
     | none => false) = true := by
  decide

/-- C2 (amended): `set(k, v)` removes the entry previously stored for
`_lower(k)` (if any) from its position and appends the new entry at the end
of the backing store, so iteration order reflects the order of most recent
writes of normalized keys, not of first insertions. -/
theorem setitem_moves_to_end (d : Dicti) (k : Key) (v : Value) (hw : wfD d) :
    ∃ d', setitem d k v = some d' ∧
      d'.store = (match alookup (plower k) d.caseTbl with
        | some orig => aerase orig d.store
        | none => d.store) ++ [(k, v)] :=
  ⟨_, (setitem_spec hw k v).1, rfl⟩

def c2d : Dicti :=
  ⟨.ordered, [(Key.str "a", Value.nat 1), (Key.str "b", Value.nat 2)],
   [(Key.str "a", Key.str "a"), (Key.str "b", Key.str "b")]⟩

theorem setitem_moves_to_end_witness :
    ∃ d', setitem c2d (Key.str "A") (Value.nat 5) = some d' ∧
      d'.store = (match alookup (plower (Key.str "A")) c2d.caseTbl with
        | some orig => aerase orig c2d.store
        | none => c2d.store) ++ [(Key.str "A", Value.nat 5)] :=
  setitem_moves_to_end c2d (Key.str "A") (Value.nat 5) (by decide)

/-- C3: with `i` the unordered variant on `Hello ↦ 1, beautiful ↦ 2,
world! ↦ 3`, `o` the ordered variant on the same pairs, and `r` the ordered
variant on the reversed pairs: `r == i`, `i == r`, `i == o`, `o == i` all
hold, `o != r` and `r != o` hold (equality is not transitive), and for every
pair among `i, o, r` the two comparison directions agree. -/
theorem eq_reflexive_not_transitive :
    (match fromPairs .unordered
        [(Key.str "Hello", Value.nat 1), (Key.str "beautiful", Value.nat 2),
         (Key.str "world!", Value.nat 3)],
      fromPairs .ordered
        [(Key.str "Hello", Value.nat 1), (Key.str "beautiful", Value.nat 2),
         (Key.str "world!", Value.nat 3)],
      fromPairs .ordered
        [(Key.str "world!", Value.nat 3), (Key.str "beautiful", Value.nat 2),
         (Key.str "Hello", Value.nat 1)] with
     | some i, some o, some r =>
        eqD r i && eqD i r && eqD i o && eqD o i && !eqD o r && !eqD r o &&
        ([i, o, r].all fun x => [i, o, r].all fun y => eqD x y == eqD y x)
     | _, _, _ => false) = true := by
  decide

/-- C4: `set("Hello", 1); set("HELLO", 2)` on an empty container yields
exactly one entry with value `2` enumerated under the key `"HELLO"`; and in
general, after any successful `set(k, v)` the side table binds the normalized
key to the new casing `k` and the store binds `k` to `v`, with `k` in
`keys()`. -/
theorem last_write_wins :
    ((match setitem (emptyD .unordered) (Key.str "Hello") (Value.nat 1) with
      | some d1 => setitem d1 (Key.str "HELLO") (Value.nat 2)
      | none => none) =
      some ⟨.unordered, [(Key.str "HELLO", Value.nat 2)],
        [(Key.str "hello", Key.str "HELLO")]⟩) ∧
    (∀ (d : Dicti) (k : Key) (v : Value) (d' : Dicti), wfD d →
      setitem d k v = some d' →
        alookup (plower k) d'.caseTbl = some k ∧ alookup k d'.store = some v ∧
        k ∈ keysD d') := by
  constructor
  · decide
  · intro d k v d' hw h
    obtain ⟨h1, h2⟩ := setitem_lookup hw h
    refine ⟨h1, h2, ?_⟩
    rw [keysD]
    exact List.mem_map_of_mem Prod.fst (alookup_mem h2)

theorem last_write_wins_witness :
    alookup (plower (Key.str "Hello"))
      (Dicti.mk .unordered [(Key.str "Hello", Value.nat 4)]
        [(Key.str "hello", Key.str "Hello")]).caseTbl = some (Key.str "Hello") ∧
    alookup (Key.str "Hello")
      (Dicti.mk .unordered [(Key.str "Hello", Value.nat 4)]
        [(Key.str "hello", Key.str "Hello")]).store = some (Value.nat 4) ∧
    Key.str "Hello" ∈ keysD (Dicti.mk .unordered
      [(Key.str "Hello", Value.nat 4)] [(Key.str "hello", Key.str "Hello")]) :=
  last_write_wins.2 (emptyD .unordered) (Key.str "Hello") (Value.nat 4)
    (Dicti.mk .unordered [(Key.str "Hello", Value.nat 4)]
      [(Key.str "hello", Key.str "Hello")]) (by decide) (by decide)

/-- C5: every state reachable from an empty container through `set`, `delete`,
`pop`, `update` and `clear` satisfies the dual-index invariant `wfD`: stored
original keys lower to their index keys, no two entries share a normalized
key, and both indices have equal size. -/
theorem reach_wf {d : Dicti} (h : Reach d) : wfD d := by
  induction h with
  | emp k => exact wfD_empty k
  | set hr hs ih =>
    next d' k v =>
      obtain ⟨d'', hs', hw, _⟩ := setitem_wf ih k v
      rw [hs] at hs'
      cases hs'
      exact hw
  | del hr hs ih =>
    next d' k =>
      obtain ⟨orig, _, hdel, hw⟩ := delitem_spec ih (contains_of_delitem_some hs)
      rw [hs] at hdel
      injection hdel with hdel
      rw [hdel]
      exact hw
  | popR hr hs ih =>
    unfold pop at hs
    split at hs
    · split at hs
      · cases hs
      · split at hs
        · cases hs
        · next d2 hdel =>
            obtain ⟨orig, _, hdel', hw⟩ := delitem_spec ih (contains_of_delitem_some hdel)
            rw [hdel] at hdel'
            rw [Option.some.injEq] at hdel' hs
            rw [Prod.mk.injEq] at hs
            rw [← hs.2, hdel']
            exact hw
    · split at hs
      · rw [Option.some.injEq, Prod.mk.injEq] at hs
        rw [← hs.2]
        exact ih
      · cases hs
  | upd hr hu ih => exact (updPairs_wf_of_eq ih hu).1
  | clr hr ih =>
    next d0 => exact wfD_clear d0

theorem reach_wf_witness :
    wfD ⟨StoreKind.ordered, [(Key.str "A", Value.nat 1)],
      [(Key.str "a", Key.str "A")]⟩ :=
  reach_wf (@Reach.set (emptyD .ordered)
    ⟨StoreKind.ordered, [(Key.str "A", Value.nat 1)], [(Key.str "a", Key.str "A")]⟩
    (Key.str "A") (Value.nat 1) (Reach.emp .ordered) (by decide))

end Pydicti

namespace Pydicti

/-- C6: on a well-formed container, `set` and `contains` never fail; `get`,
`delete`, and `pop` without a default fail (raise `KeyError`) exactly when the
normalized key has no entry; a `pop` with a default on an absent key returns
the default with the container unchanged; and after a successful `delete(k)`,
`contains(k)` is false and `get(k)` fails. -/
theorem error_contract (d : Dicti) (k : Key) (v : Value) (hw : wfD d) :
    (∃ d', setitem d k v = some d') ∧
    (getitem d k = none ↔ contains d k = false) ∧
    (delitem d k = none ↔ contains d k = false) ∧
    (pop d k none = none ↔ contains d k = false) ∧
    (∀ v0, contains d k = false → pop d k (some v0) = some (v0, d)) ∧
    (∀ d', delitem d k = some d' → contains d' k = false ∧ getitem d' k = none) := by
  refine ⟨⟨_, (setitem_spec hw k v).1⟩, ?_, ?_, ?_, ?_, ?_⟩
  · constructor
    · intro hg
      by_cases hc : contains d k = true
      · obtain ⟨w, hgw⟩ := getitem_some_of_contains hw hc
        rw [hgw] at hg
        cases hg
      · rwa [Bool.not_eq_true] at hc
    · exact getitem_none_of_not_contains
  · constructor
    · intro hdl
      by_cases hc : contains d k = true
      · obtain ⟨orig, _, hdel, _⟩ := delitem_spec hw hc
        rw [hdel] at hdl
        cases hdl
      · rwa [Bool.not_eq_true] at hc
    · exact delitem_none_of_not_contains
  · constructor
    · intro hp
      by_cases hc : contains d k = true
      · obtain ⟨w, d2, _, _, hpop⟩ := pop_some hw hc none
        rw [hpop] at hp
        cases hp
      · rwa [Bool.not_eq_true] at hc
    · exact pop_none_of_not_contains
  · intro v0 hc
    exact pop_default hc v0
  · intro d' hdel'
    obtain ⟨orig, hl, hdel, hwd⟩ := delitem_spec hw (contains_of_delitem_some hdel')
    rw [hdel'] at hdel
    injection hdel with hdel
    have hcf : contains d' k = false := by
      rw [hdel]
      show (alookup (plower k) (aerase (plower k) d.caseTbl)).isSome = false
      rw [alookup_aerase_self hw.2.2.1]
      rfl
    exact ⟨hcf, getitem_none_of_not_contains hcf⟩

def c6d : Dicti :=
  ⟨.unordered, [(Key.str "A", Value.nat 0)], [(Key.str "a", Key.str "A")]⟩

theorem error_contract_witness :
    getitem c6d (Key.str "B") = none ↔ contains c6d (Key.str "B") = false :=
  (error_contract c6d (Key.str "B") (Value.nat 9) (by decide)).2.1

/-- C7: rebuilding a well-formed container of any configuration from its
exported `(original_key, value)` item sequence — which is also what `repr`
renders — succeeds and yields a container equal to the original in both
comparison directions. -/
theorem pair_export_roundtrip (d : Dicti) (hw : wfD d) :
    ∃ d', fromPairs d.kind (to_pairs d) = some d' ∧
      eqD d' d = true ∧ eqD d d' = true := by
  obtain ⟨d', h1, h2, h3, h4⟩ := rebuild_core hw
  obtain ⟨e1, e2⟩ := eqD_of_same_store hw h3 h4
  exact ⟨d', h1, e1, e2⟩

def c7d : Dicti :=
  ⟨.ordered, [(Key.str "Hello", Value.nat 1), (Key.str "WORLD", Value.nat 2)],
   [(Key.str "hello", Key.str "Hello"), (Key.str "world", Key.str "WORLD")]⟩

theorem pair_export_roundtrip_witness :
    ∃ d', fromPairs c7d.kind (to_pairs c7d) = some d' ∧
      eqD d' c7d = true ∧ eqD c7d d' = true :=
  pair_export_roundtrip c7d (by decide)

/-- C8: a successful factory call is memoized — repeating it returns the
identical class and leaves the registry unchanged; module import builds the
default `dicti` class (identity 0) for `dict` and `odicti` (identity 1) for
`OrderedDict`, a later `build_dicti(dict)` returns the canonical `dicti`
identity, and `Dicti(obj)` for an object of type `OrderedDict` returns the
memoized `odicti` identity. -/
theorem factory_memoized (st st' : FactoryState) (b : BaseKind) (c : Nat)
    (h : build_dicti st b = .ok (c, st')) :
    build_dicti st' b = .ok (c, st') ∧
    moduleInit = .ok (0, 1, ⟨[(.pdict, 0), (.podict, 1)], 2⟩) ∧
    build_dicti ⟨[(.pdict, 0), (.podict, 1)], 2⟩ .pdict =
      .ok (0, ⟨[(.pdict, 0), (.podict, 1)], 2⟩) ∧
    DictiFn ⟨[(.pdict, 0), (.podict, 1)], 2⟩ .podict =
      .ok (1, ⟨[(.pdict, 0), (.podict, 1)], 2⟩) :=
  ⟨build_dicti_idem h, rfl, rfl, rfl⟩

theorem factory_memoized_witness :
    build_dicti ⟨[(BaseKind.pdict, 0)], 1⟩ .pdict =
      .ok (0, ⟨[(BaseKind.pdict, 0)], 1⟩) ∧
    moduleInit = .ok (0, 1, ⟨[(.pdict, 0), (.podict, 1)], 2⟩) ∧
    build_dicti ⟨[(.pdict, 0), (.podict, 1)], 2⟩ .pdict =
      .ok (0, ⟨[(.pdict, 0), (.podict, 1)], 2⟩) ∧
    DictiFn ⟨[(.pdict, 0), (.podict, 1)], 2⟩ .podict =
      .ok (1, ⟨[(.pdict, 0), (.podict, 1)], 2⟩) :=
  factory_memoized freshState ⟨[(BaseKind.pdict, 0)], 1⟩ .pdict 0 (by rfl)

/-- C9: on a registry that only memoizes mapping types, the factory raises
`TypeError` ("Not a mapping type") exactly when the requested base is not a
`MutableMapping` subclass; for a capable base it succeeds. -/
theorem factory_error_iff (st : FactoryState) (b : BaseKind) (h : wfF st) :
    (∃ msg, build_dicti st b = .error msg) ↔ isMutableMappingSub b = false := by
  rw [build_dicti]
  cases hl : alookup b st.built with
  | some cls =>
    have hm := h (b, cls) (alookup_mem hl)
    constructor
    · rintro ⟨msg, hmsg⟩
      cases hmsg
    · intro hf
      rw [hm] at hf
      cases hf
  | none =>
    by_cases hm : isMutableMappingSub b = true
    · rw [if_pos hm]
      constructor
      · rintro ⟨msg, hmsg⟩
        cases hmsg
      · intro hf
        rw [hm] at hf
        cases hf
    · rw [Bool.not_eq_true] at hm
      rw [hm]
      simp only [Bool.false_eq_true, if_false]
      constructor
      · intro _
        trivial
      · intro _
        exact ⟨"Not a mapping type", rfl⟩

theorem factory_error_iff_witness :
    (∃ msg, build_dicti freshState .plist = .error msg) ↔
      isMutableMappingSub .plist = false :=
  factory_error_iff freshState .plist (by decide)

/-- C10 counterexample: on the container `A ↦ 1` the historical `__copy__`
(rebuilding from `values()`) fails — the scalar value `1` cannot be unpacked
as a `(key, value)` pair — while the current `__copy__` (rebuilding from the
container itself) returns a container equal to the original, so the two
operations are not equivalent. -/
theorem copy_old_not_equivalent :
    (match fromPairs .unordered [(Key.str "A", Value.nat 1)] with
     | some d =>
        decide (copyOld d = none) &&
        (match copyCur d with
         | some d2 => eqD d2 d && eqD d d2
         | none => false)
     | none => false) = true := by
  decide

/-- C10 (amended): the current `__copy__` always succeeds on a well-formed
container and yields a container of the same configuration with the same
entries, equal to the original in both directions; the historical snapshot's
`__copy__` is not equivalent: it rebuilds from the `values()` sequence and
fails whenever some stored value is not itself a key-value pair. -/
theorem copy_current_correct (d : Dicti) (hw : wfD d) :
    (∃ d', copyCur d = some d' ∧ d'.kind = d.kind ∧ d'.store = d.store ∧
      eqD d' d = true ∧ eqD d d' = true) ∧
    ((∃ p ∈ d.store, asPair p.2 = none) → copyOld d = none) := by
  constructor
  · obtain ⟨d', h1, h2, h3, h4⟩ := rebuild_core hw
    obtain ⟨e1, e2⟩ := eqD_of_same_store hw h3 h4
    refine ⟨d', ?_, h3, h4, e1, e2⟩
    rw [copyCur_eq_fromPairs hw]
    exact h1
  · rintro ⟨p, hp, hnp⟩
    rw [copyOld]
    have hu : unpackPairs (valuesD d) = none := by
      apply unpackPairs_none (v := p.2) ?_ hnp
      rw [valuesD]
      exact List.mem_map_of_mem Prod.snd hp
    rw [hu]

def c10d : Dicti :=
  ⟨.unordered, [(Key.str "A", Value.nat 1)], [(Key.str "a", Key.str "A")]⟩

theorem copy_current_correct_witness :
    copyOld c10d = none :=
  (copy_current_correct c10d (by decide)).2
    ⟨(Key.str "A", Value.nat 1), by decide, by decide⟩

end Pydicti
